import Mathlib

/-!
Verification of the SiftClient core (sift_client.ts) against its design
specification.  Each definition below is a shallow embedding of the
corresponding TypeScript function; machine behaviour that depends on the
environment (the HTTP fetch, Math.random, Date.now) is modelled by explicit
function parameters, and the async while-loops are modelled with explicit
fuel returning Option (none = fuel exhausted; every terminating execution of
the source corresponds to a sufficiently large fuel value).
-/

/-- An entity record (PersonBase in the source).  Only the fields read by the
core functions are modelled; the remaining fields of PersonBase are opaque
passthrough data which no modelled operation inspects.  Optional TS fields
become Option. -/
structure Person where
  id : String
  teamLeaderId : Option String := none
  directReportCount : Option Nat := none
  reportingPath : Option (List String) := none
  deriving Repr, DecidableEq

/- ---------------------------------------------------------------------
Transport (SiftClient.requestJsonByUrl, sift_client.ts lines 135-187)
--------------------------------------------------------------------- -/

/-- Outcome of one call to the injected fetch implementation.
`response status statusText bodyText retryAfter payload` models an HTTP
response; `retryAfter` is the numeric value of the retry-after header
(none when the header is absent or non-numeric, in which case
`Number(header)` in the source yields 0 or NaN and the `||` fallback fires;
an explicit numeric "0" header is modelled as `some 0`).  `payload` is the
value `res.json()` would produce.  `networkError` models a rejected fetch
promise (connection reset, abort, or a json-parse failure). -/
inductive FetchOutcome (α : Type) where
  | response (status : Nat) (statusText : String) (bodyText : String)
      (retryAfter : Option Nat) (payload : α)
  | networkError (message : String)

/-- Which of the two sleep call sites produced a backoff delay:
`statusRetry` is the sleep inside the 429/5xx branch (line 165),
`caughtRetry` is the jittered sleep inside the catch block (line 181). -/
inductive DelayKind where
  | statusRetry
  | caughtRetry
  deriving Repr, DecidableEq

/-- One recorded backoff sleep: the (1-based) attempt that failed, the call
site, the retry-after header value that was in scope there (always none for
the catch-block site, which never reads the header), and the slept
duration in ms. -/
structure DelayEvent where
  attempt : Nat
  kind : DelayKind
  retryAfter : Option Nat
  delay : Nat
  deriving Repr, DecidableEq

/-- Trace of one requestJsonByUrl call: how many fetch attempts were made,
the backoff sleeps performed, and the final outcome.  `Except.ok none`
models the undefined returned for a 204 response. -/
structure TransportResult (α : Type) where
  attempts : Nat
  delays : List DelayEvent
  outcome : Except String (Option α)

/-- The error message built at line 169 of the source. -/
def httpErrorMsg (method url : String) (status : Nat) (statusText bodyText : String) :
    String :=
  "Sift " ++ method ++ " " ++ url ++ " failed: " ++ toString status ++ " "
    ++ statusText ++ " " ++ bodyText

/-- `Number(res.headers.get('retry-after')) || Math.pow(2, attempt) * 250`
(line 164): an absent/non-numeric header gives a falsy Number, an explicit 0
is falsy too, so both fall back to the exponential term; note no jitter. -/
def statusRetryDelay (attempt : Nat) (retryAfter : Option Nat) : Nat :=
  match retryAfter with
  | some v => if v = 0 then 2 ^ attempt * 250 else v
  | none => 2 ^ attempt * 250

/-- `Math.pow(2, attempt) * 200 + Math.random() * 100` (line 181); the
random draw is supplied by the `jitter` parameter. -/
def caughtRetryDelay (attempt : Nat) (jitter : Nat → Nat) : Nat :=
  2 ^ attempt * 200 + jitter attempt

/-- The while-loop of requestJsonByUrl (lines 154-183).  `env a` is what the
a-th fetch attempt produces, `attempt` is the loop counter before the
`attempt++`, `remaining = maxAttempts - attempt` drives the recursion, and
`lastErr` mirrors the mutable variable of the same name.  Faithful detail:
the `throw` for a non-retryable HTTP status sits inside the `try` block, so
it is caught by the catch clause of the same iteration and, when
`attempt < maxAttempts`, retried with the jittered catch-block backoff. -/
def requestGo {α : Type} (env : Nat → FetchOutcome α) (jitter : Nat → Nat)
    (method url : String) :
    Nat → Nat → List DelayEvent → Option String → TransportResult α
  | attempt, 0, delays, lastErr =>
      ⟨attempt, delays, Except.error (lastErr.getD "Unknown error")⟩
  | attempt, remaining + 1, delays, lastErr =>
      let a := attempt + 1
      match env a with
      | FetchOutcome.response status statusText bodyText retryAfter payload =>
        if status = 204 then ⟨a, delays, Except.ok none⟩
        else if 200 ≤ status ∧ status < 300 then ⟨a, delays, Except.ok (some payload)⟩
        else if (status = 429 ∨ 500 ≤ status) ∧ a < 3 then
          requestGo env jitter method url a remaining
            (delays ++ [⟨a, DelayKind.statusRetry, retryAfter, statusRetryDelay a retryAfter⟩])
            lastErr
        else
          let msg := httpErrorMsg method url status statusText bodyText
          if 3 ≤ a then ⟨a, delays, Except.error msg⟩
          else
            requestGo env jitter method url a remaining
              (delays ++ [⟨a, DelayKind.caughtRetry, none, caughtRetryDelay a jitter⟩])
              (some msg)
      | FetchOutcome.networkError m =>
        if 3 ≤ a then ⟨a, delays, Except.error m⟩
        else
          requestGo env jitter method url a remaining
            (delays ++ [⟨a, DelayKind.caughtRetry, none, caughtRetryDelay a jitter⟩])
            (some m)

/-- SiftClient.requestJsonByUrl: at most maxAttempts = 3 fetch attempts. -/
def requestJsonByUrl {α : Type} (env : Nat → FetchOutcome α) (jitter : Nat → Nat)
    (method url : String) : TransportResult α :=
  requestGo env jitter method url 0 3 [] none

/-- A fetch environment answering 404 to every attempt. -/
def env404 : Nat → FetchOutcome Nat :=
  fun _ => FetchOutcome.response 404 "Not Found" "nope" none 0

/-- A fetch environment answering 503 to the first two attempts and 200 to
the third. -/
def env503twice : Nat → FetchOutcome Nat :=
  fun a => if a ≤ 2 then FetchOutcome.response 503 "Service Unavailable" "" none 0
           else FetchOutcome.response 200 "OK" "" none 7

/-- A fetch environment answering 503 (no retry-after header) to the first
attempt and 200 afterwards. -/
def env503once : Nat → FetchOutcome Nat :=
  fun a => if a = 1 then FetchOutcome.response 503 "Service Unavailable" "" none 0
           else FetchOutcome.response 200 "OK" "" none 7

/-- A deterministic stand-in for `Math.random() * 100` drawing 37 on every
attempt (37 is a value the source's random draw can produce). -/
def jitter37 : Nat → Nat := fun _ => 37

/-- Every backoff sleep performed by requestGo beyond those already recorded
comes from one of the two call sites with its exact formula: the 429/5xx
branch sleeps `retryAfter || 2^attempt * 250` (no jitter); the catch block
sleeps `2^attempt * 200 + jitter` and never reads the retry-after header. -/
theorem requestGo_delays_mem {α : Type} (env : Nat → FetchOutcome α) (jitter : Nat → Nat)
    (method url : String) :
    ∀ remaining attempt delays lastErr ev,
      ev ∈ (requestGo env jitter method url attempt remaining delays lastErr).delays →
      ev ∈ delays ∨
      (ev.kind = DelayKind.statusRetry ∧ ev.delay = statusRetryDelay ev.attempt ev.retryAfter) ∨
      (ev.kind = DelayKind.caughtRetry ∧ ev.retryAfter = none ∧
        ev.delay = caughtRetryDelay ev.attempt jitter) := by
  intro remaining
  induction remaining with
  | zero =>
    intro attempt delays lastErr ev h
    exact Or.inl h
  | succ n ih =>
    intro attempt delays lastErr ev h
    simp only [requestGo] at h
    split at h
    · split at h
      · exact Or.inl h
      · split at h
        · exact Or.inl h
        · split at h
          · rcases ih _ _ _ _ h with h' | h' | h'
            · rcases List.mem_append.mp h' with h'' | h''
              · exact Or.inl h''
              · rcases List.mem_singleton.mp h'' with rfl
                exact Or.inr (Or.inl ⟨rfl, rfl⟩)
            · exact Or.inr (Or.inl h')
            · exact Or.inr (Or.inr h')
          · split at h
            · exact Or.inl h
            · rcases ih _ _ _ _ h with h' | h' | h'
              · rcases List.mem_append.mp h' with h'' | h''
                · exact Or.inl h''
                · rcases List.mem_singleton.mp h'' with rfl
                  exact Or.inr (Or.inr ⟨rfl, rfl, rfl⟩)
              · exact Or.inr (Or.inl h')
              · exact Or.inr (Or.inr h')
    · split at h
      · exact Or.inl h
      · rcases ih _ _ _ _ h with h' | h' | h'
        · rcases List.mem_append.mp h' with h'' | h''
          · exact Or.inl h''
          · rcases List.mem_singleton.mp h'' with rfl
            exact Or.inr (Or.inr ⟨rfl, rfl, rfl⟩)
        · exact Or.inr (Or.inl h')
        · exact Or.inr (Or.inr h')

/-- C2: the claim is the documented intent ("small retry/backoff for 429/5xx",
source lines 19 and 149) but the code slips: the `throw` for a non-retryable
status (line 169) sits inside the `try` block, so the catch clause of the
same iteration catches it and retries.  Evaluated evidence: two 503s followed
by a 200 do succeed after exactly 3 attempts (the part of the claim that
holds), but a single 404 is NOT an immediate failure after 1 attempt — the
client makes 3 attempts (with two jittered backoff sleeps) before surfacing
the 404 error with status and body text. -/
theorem claim2_retry_bug_evidence :
    (requestJsonByUrl env503twice jitter37 "GET" "https://x").attempts = 3 ∧
    (requestJsonByUrl env503twice jitter37 "GET" "https://x").outcome = Except.ok (some 7) ∧
    (requestJsonByUrl env404 jitter37 "GET" "https://x").attempts = 3 ∧
    (requestJsonByUrl env404 jitter37 "GET" "https://x").delays.length = 2 ∧
    (requestJsonByUrl env404 jitter37 "GET" "https://x").outcome =
      Except.error "Sift GET https://x failed: 404 Not Found nope" :=
  ⟨rfl, rfl, rfl, rfl, rfl⟩

/-- C6 counterexample: a 503 without a retry-after header is retried after
exactly 2^1 * 250 = 500 ms, with NO added random jitter — even on a run
whose random draw is 37, the recorded delay is 500, not 500 + 37, refuting
"otherwise the delay is exponential from a 250ms base scaled by 2^attempt
with added random jitter". -/
theorem claim6_counterexample :
    (requestJsonByUrl env503once jitter37 "GET" "u").delays.map DelayEvent.delay = [500] ∧
    ¬ ((requestJsonByUrl env503once jitter37 "GET" "u").delays.map DelayEvent.delay
        = [2 ^ 1 * 250 + 37]) :=
  ⟨rfl, by decide⟩

/-- C6 (amended): for every retried transport attempt, a backoff from the
429/5xx branch uses the supplied nonzero numeric retry-after value as the
delay, and otherwise (header absent, non-numeric, or zero) the delay is
exactly 2^attempt * 250 ms with no jitter; random jitter is added only to
the catch-block backoff (network-level failures and the erroneously retried
thrown HTTP errors), which uses a 200 ms base and ignores retry-after. -/
theorem claim6_backoff_policy {α : Type} (env : Nat → FetchOutcome α)
    (jitter : Nat → Nat) (method url : String) (ev : DelayEvent)
    (hev : ev ∈ (requestJsonByUrl env jitter method url).delays) :
    (ev.kind = DelayKind.statusRetry → ∀ v, ev.retryAfter = some v → v ≠ 0 → ev.delay = v) ∧
    (ev.kind = DelayKind.statusRetry → (ev.retryAfter = none ∨ ev.retryAfter = some 0) →
      ev.delay = 2 ^ ev.attempt * 250) ∧
    (ev.kind = DelayKind.caughtRetry →
      ev.delay = 2 ^ ev.attempt * 200 + jitter ev.attempt) := by
  rcases requestGo_delays_mem env jitter method url 3 0 [] none ev hev with h | h | h
  · exact absurd h (List.not_mem_nil ev)
  · refine ⟨?_, ?_, ?_⟩
    · intro _ v hra hv
      rw [h.2, hra, statusRetryDelay, if_neg hv]
    · intro _ hra
      rcases hra with hra | hra
      · rw [h.2, hra, statusRetryDelay]
      · rw [h.2, hra, statusRetryDelay, if_pos rfl]
    · intro hk
      rw [h.1] at hk
      cases hk
  · refine ⟨?_, ?_, ?_⟩
    · intro hk
      rw [h.1] at hk
      cases hk
    · intro hk
      rw [h.1] at hk
      cases hk
    · intro _
      rw [h.2.2, caughtRetryDelay]

/-- Witness for claim6_backoff_policy: the single delay event of the
env503once run is a statusRetry at attempt 1 without a header, and the
amended policy evaluates on it. -/
theorem claim6_backoff_policy_witness :
    (⟨1, DelayKind.statusRetry, none, 500⟩ : DelayEvent) ∈
      (requestJsonByUrl env503once jitter37 "GET" "u").delays ∧
    (((⟨1, DelayKind.statusRetry, none, 500⟩ : DelayEvent).kind = DelayKind.statusRetry →
        ∀ v, (⟨1, DelayKind.statusRetry, none, 500⟩ : DelayEvent).retryAfter = some v →
          v ≠ 0 → (⟨1, DelayKind.statusRetry, none, 500⟩ : DelayEvent).delay = v) ∧
      ((⟨1, DelayKind.statusRetry, none, 500⟩ : DelayEvent).kind = DelayKind.statusRetry →
        ((⟨1, DelayKind.statusRetry, none, 500⟩ : DelayEvent).retryAfter = none ∨
          (⟨1, DelayKind.statusRetry, none, 500⟩ : DelayEvent).retryAfter = some 0) →
        (⟨1, DelayKind.statusRetry, none, 500⟩ : DelayEvent).delay =
          2 ^ (⟨1, DelayKind.statusRetry, none, 500⟩ : DelayEvent).attempt * 250) ∧
      ((⟨1, DelayKind.statusRetry, none, 500⟩ : DelayEvent).kind = DelayKind.caughtRetry →
        (⟨1, DelayKind.statusRetry, none, 500⟩ : DelayEvent).delay =
          2 ^ (⟨1, DelayKind.statusRetry, none, 500⟩ : DelayEvent).attempt * 200 +
            jitter37 (⟨1, DelayKind.statusRetry, none, 500⟩ : DelayEvent).attempt)) :=
  ⟨by decide,
   claim6_backoff_policy env503once jitter37 "GET" "u"
     ⟨1, DelayKind.statusRetry, none, 500⟩ (by decide)⟩

/- ---------------------------------------------------------------------
Metadata cache (SiftClient.getFields, sift_client.ts lines 199-208)
--------------------------------------------------------------------- -/

/-- A schema entry (FieldMeta in the source). -/
structure FieldMeta where
  objectKey : String
  name : String
  type : String
  filterable : Option Bool := none
  searchable : Option Bool := none
  deriving Repr, DecidableEq

/-- The mutable `fieldsCache` member: none, or (fetchedAt, items). -/
structure FieldsCacheState where
  fieldsCache : Option (Nat × List FieldMeta)
  deriving Repr, DecidableEq

/-- Observable outcome of one getFields call: the returned items, the cache
state after the call, and how many network fetches were made (0 or 1). -/
structure FieldsCall where
  items : List FieldMeta
  state : FieldsCacheState
  networkCalls : Nat
  deriving Repr, DecidableEq

/-- SiftClient.getFields.  `server now` is what a network fetch started at
time `now` would return (`resp?.data ?? []` already applied); `now` is
Date.now() at call entry; `ttlMs` is fieldsTtlMs. -/
def getFields (server : Nat → List FieldMeta) (ttlMs : Nat) (now : Nat)
    (forceRefresh : Bool) (st : FieldsCacheState) : FieldsCall :=
  match st.fieldsCache with
  | some (fetchedAt, items) =>
    if forceRefresh = false ∧ now - fetchedAt < ttlMs then
      ⟨items, st, 0⟩
    else
      let fetched := server now
      ⟨fetched, ⟨some (now, fetched)⟩, 1⟩
  | none =>
    let fetched := server now
    ⟨fetched, ⟨some (now, fetched)⟩, 1⟩

/-- C7: starting from an empty cache, two getFields(forceRefresh = false)
calls at times t0 and t1 whose cached snapshot is still younger than the
TTL at the second call perform exactly one network fetch between them and
return the same schema; and a forceRefresh = true call always fetches and
replaces the cached snapshot wholesale with the fresh fetch. -/
theorem claim7_fields_cache (server : Nat → List FieldMeta) (ttlMs t0 t1 : Nat)
    (hfresh : t1 - t0 < ttlMs) :
    (getFields server ttlMs t0 false ⟨none⟩).networkCalls +
      (getFields server ttlMs t1 false (getFields server ttlMs t0 false ⟨none⟩).state).networkCalls
      = 1 ∧
    (getFields server ttlMs t1 false (getFields server ttlMs t0 false ⟨none⟩).state).items
      = (getFields server ttlMs t0 false ⟨none⟩).items ∧
    (∀ (st : FieldsCacheState) (now : Nat),
      (getFields server ttlMs now true st).networkCalls = 1 ∧
      (getFields server ttlMs now true st).state = ⟨some (now, server now)⟩ ∧
      (getFields server ttlMs now true st).items = server now) := by
  have h1 : getFields server ttlMs t0 false ⟨none⟩
      = ⟨server t0, ⟨some (t0, server t0)⟩, 1⟩ := rfl
  have h2 : getFields server ttlMs t1 false ⟨some (t0, server t0)⟩
      = ⟨server t0, ⟨some (t0, server t0)⟩, 0⟩ := by
    simp [getFields, hfresh]
  refine ⟨?_, ?_, ?_⟩
  · simp [h1, h2]
  · simp [h1, h2]
  · intro st now
    rcases st with ⟨c⟩
    rcases c with _ | ⟨fetchedAt, items⟩
    · exact ⟨rfl, rfl, rfl⟩
    · refine ⟨?_, ?_, ?_⟩ <;> simp [getFields]

/-- Witness for claim7_fields_cache at server returning one concrete field,
ttl 600000 ms, call times 0 and 1. -/
theorem claim7_fields_cache_witness :
    ((1 : Nat) - 0 < 600000) ∧
    ((getFields (fun _ => [⟨"department", "Department", "string", none, none⟩])
        600000 0 false ⟨none⟩).networkCalls +
      (getFields (fun _ => [⟨"department", "Department", "string", none, none⟩])
        600000 1 false
        (getFields (fun _ => [⟨"department", "Department", "string", none, none⟩])
          600000 0 false ⟨none⟩).state).networkCalls = 1 ∧
    (getFields (fun _ => [⟨"department", "Department", "string", none, none⟩])
        600000 1 false
        (getFields (fun _ => [⟨"department", "Department", "string", none, none⟩])
          600000 0 false ⟨none⟩).state).items
      = (getFields (fun _ => [⟨"department", "Department", "string", none, none⟩])
          600000 0 false ⟨none⟩).items ∧
    (∀ (st : FieldsCacheState) (now : Nat),
      (getFields (fun _ => [⟨"department", "Department", "string", none, none⟩])
        600000 now true st).networkCalls = 1 ∧
      (getFields (fun _ => [⟨"department", "Department", "string", none, none⟩])
        600000 now true st).state
        = ⟨some (now, [⟨"department", "Department", "string", none, none⟩])⟩ ∧
      (getFields (fun _ => [⟨"department", "Department", "string", none, none⟩])
        600000 now true st).items = [⟨"department", "Department", "string", none, none⟩])) :=
  ⟨by decide,
   claim7_fields_cache (fun _ => [⟨"department", "Department", "string", none, none⟩])
     600000 0 1 (by decide)⟩

/- ---------------------------------------------------------------------
Record resolver and paginator (sift_client.ts lines 192-197, 222-229,
247-258, 336-346)
--------------------------------------------------------------------- -/

/-- SiftClient.getPerson (lines 192-197).  `fetch key` is the remote answer
(`resp?.data`) for a GET of /people/key, or an error for a failed round
trip.  The second component counts network requests issued: the empty-key
caller error is thrown before any request. -/
def getPerson (fetch : String → Except String Person) (idOrEmail : String) :
    Except String Person × Nat :=
  if idOrEmail = "" then (Except.error "getPerson: idOrEmail is required", 0)
  else (fetch idOrEmail, 1)

/-- A condition of the POST /search/people filter model. -/
structure Condition where
  field : String
  comparison : String
  value : Option String := none
  deriving Repr, DecidableEq

/-- The Condition | BoolGroup filter model (boolean composition of
conditions); getDirectReports only ever builds a single `cond`. -/
inductive FilterExpr where
  | cond (c : Condition)
  | andGroup (xs : List FilterExpr)
  | orGroup (xs : List FilterExpr)
  | notGroup (x : FilterExpr)

/-- The structured POST /search/people request body. -/
structure SearchPostBody where
  q : Option String := none
  page : Option Nat := none
  pageSize : Option Nat := none
  sortBy : Option String := none
  sortDirection : Option String := none
  filter : Option FilterExpr := none

/-- The body built at line 251 of the source:
`{ page: 1, pageSize: size, filter: { field: 'teamLeaderId',
comparison: 'eq', value: managerId } }`. -/
def directReportsBody (managerId : String) (size : Nat) : SearchPostBody :=
  { page := some 1, pageSize := some size,
    filter := some (FilterExpr.cond
      { field := "teamLeaderId", comparison := "eq", value := some managerId }) }

/-- One search result page as the client observes it: the `data` items and
whether a `links.next` continuation reference is present. -/
structure Page where
  data : List Person
  hasNext : Bool
  deriving Repr, DecidableEq

/-- The pagination loop of getDirectReports (lines 251-256): the first page
is the POST response; while the current page carries a next link, follow it
(the model's page list supplies the successive responses).  Returns the
accumulated items in page-arrival order and the number of requests made. -/
def collectPages : List Page → List Person × Nat
  | [] => ([], 0)
  | p :: rest =>
    if p.hasNext then
      let r := collectPages rest
      (p.data ++ r.1, r.2 + 1)
    else (p.data, 1)

/-- Helper of dedupeById carrying the `seen` identifier set (lines 337-344):
an item whose id is empty or already seen is skipped, otherwise kept. -/
def dedupeGo (seen : List String) : List Person → List Person
  | [] => []
  | x :: xs =>
    if x.id = "" ∨ x.id ∈ seen then dedupeGo seen xs
    else x :: dedupeGo (x.id :: seen) xs

/-- dedupeById (lines 336-346). -/
def dedupeById (arr : List Person) : List Person :=
  dedupeGo [] arr

/-- Observable behaviour of one getDirectReports call: the structured POST
body issued (none when the caller error fires first), the result, and the
number of search requests made. -/
structure DRRun where
  request : Option SearchPostBody
  result : Except String (List Person)
  apiCalls : Nat

/-- SiftClient.getDirectReports (lines 247-258).  `pages` supplies the
server's successive responses (initial POST, then each followed next
link). -/
def getDirectReports (pages : List Page) (managerId : String) (pageSize : Nat) :
    DRRun :=
  if managerId = "" then
    { request := none,
      result := Except.error "getDirectReports: managerId is required",
      apiCalls := 0 }
  else
    let size := min (max 1 pageSize) 100
    { request := some (directReportsBody managerId size),
      result := Except.ok (dedupeById (collectPages pages).1),
      apiCalls := (collectPages pages).2 }

/-- Every id in the output of dedupeGo is nonempty, outside `seen`, and the
output ids are duplicate-free. -/
theorem dedupeGo_nodup (l : List Person) :
    ∀ seen, ((dedupeGo seen l).map Person.id).Nodup ∧
      ∀ y ∈ dedupeGo seen l, y.id ∉ seen ∧ y.id ≠ "" := by
  induction l with
  | nil => intro seen; exact ⟨List.nodup_nil, by intro y hy; cases hy⟩
  | cons x xs ih =>
    intro seen
    simp only [dedupeGo]
    by_cases hx : x.id = "" ∨ x.id ∈ seen
    · rw [if_pos hx]
      exact ih seen
    · rw [if_neg hx]
      push_neg at hx
      obtain ⟨hne, hns⟩ := hx
      obtain ⟨ihn, ihm⟩ := ih (x.id :: seen)
      refine ⟨?_, ?_⟩
      · simp only [List.map_cons, List.nodup_cons]
        refine ⟨?_, ihn⟩
        intro hmem
        rcases List.mem_map.mp hmem with ⟨y, hy, hyid⟩
        exact (ihm y hy).1 (by rw [hyid]; exact List.mem_cons_self _ _)
      · intro y hy
        rcases List.mem_cons.mp hy with rfl | hy'
        · exact ⟨hns, hne⟩
        · obtain ⟨h1, h2⟩ := ihm y hy'
          exact ⟨fun hc => h1 (List.mem_cons_of_mem _ hc), h2⟩

/-- First occurrence wins: every element of the dedupeGo output is the first
element of the input carrying its id. -/
theorem dedupeGo_first (l : List Person) :
    ∀ seen x, x ∈ dedupeGo seen l →
      List.find? (fun y => y.id == x.id) l = some x := by
  induction l with
  | nil => intro seen x hx; cases hx
  | cons z zs ih =>
    intro seen x hx
    have hxs := (dedupeGo_nodup (z :: zs) seen).2 x hx
    simp only [dedupeGo] at hx
    by_cases hz : z.id = "" ∨ z.id ∈ seen
    · rw [if_pos hz] at hx
      have hns := (dedupeGo_nodup zs seen).2 x hx
      have hzx : (z.id == x.id) = false := by
        rcases hz with hz | hz
        · apply beq_eq_false_iff_ne.mpr
          intro hc
          exact hns.2 (by rw [← hc, hz])
        · apply beq_eq_false_iff_ne.mpr
          intro hc
          exact hns.1 (by rw [← hc]; exact hz)
      rw [List.find?_cons, hzx]
      exact ih seen x hx
    · rw [if_neg hz] at hx
      rcases List.mem_cons.mp hx with rfl | hx'
      · rw [List.find?_cons, beq_self_eq_true]
      · have hns := (dedupeGo_nodup zs (z.id :: seen)).2 x hx'
        have hzx : (z.id == x.id) = false := by
          apply beq_eq_false_iff_ne.mpr
          intro hc
          exact hns.1 (by rw [← hc]; exact List.mem_cons_self _ _)
        rw [List.find?_cons, hzx]
        exact ih (z.id :: seen) x hx'

/-- Completeness: every input element with a nonempty id not already seen is
represented in the dedupeGo output by some element with the same id. -/
theorem dedupeGo_complete (l : List Person) :
    ∀ seen x, x ∈ l → x.id ≠ "" → x.id ∉ seen →
      ∃ y, y ∈ dedupeGo seen l ∧ y.id = x.id := by
  induction l with
  | nil => intro seen x hx; cases hx
  | cons z zs ih =>
    intro seen x hx hne hns
    simp only [dedupeGo]
    by_cases hz : z.id = "" ∨ z.id ∈ seen
    · rw [if_pos hz]
      rcases List.mem_cons.mp hx with rfl | hx'
      · rcases hz with hz | hz
        · exact absurd hz hne
        · exact absurd hz hns
      · exact ih seen x hx' hne hns
    · rw [if_neg hz]
      rcases List.mem_cons.mp hx with rfl | hx'
      · exact ⟨x, List.mem_cons_self _ _, rfl⟩
      · by_cases hid : x.id = z.id
        · exact ⟨z, List.mem_cons_self _ _, hid.symm⟩
        · obtain ⟨y, hy, hyid⟩ := ih (z.id :: seen) x hx' hne
            (by intro hc; rcases List.mem_cons.mp hc with hc | hc
                · exact hid hc
                · exact hns hc)
          exact ⟨y, List.mem_cons_of_mem _ hy, hyid⟩

/-- C3: getDirectReports issues one structured POST search body filtering on
teamLeaderId eq managerId (page size clamped to [1,100]), follows every
server-supplied next link until none is present accumulating items in
page-arrival order (collectPages), and returns that accumulation deduped by
identifier: the output ids are duplicate-free, each output element is the
first-encountered carrier of its id, and every accumulated item with a
nonempty id stays represented (the `x.id ?? ''` guard of dedupeById drops
entities whose id is the empty string, exactly as the source does). -/
theorem claim3_direct_reports (pages : List Page) (managerId : String)
    (pageSize : Nat) (h : managerId ≠ "") :
    (getDirectReports pages managerId pageSize).request =
      some (directReportsBody managerId (min (max 1 pageSize) 100)) ∧
    (getDirectReports pages managerId pageSize).result =
      Except.ok (dedupeById (collectPages pages).1) ∧
    ((dedupeById (collectPages pages).1).map Person.id).Nodup ∧
    (∀ x ∈ dedupeById (collectPages pages).1,
      List.find? (fun y => y.id == x.id) (collectPages pages).1 = some x) ∧
    (∀ x ∈ (collectPages pages).1, x.id ≠ "" →
      ∃ y, y ∈ dedupeById (collectPages pages).1 ∧ y.id = x.id) := by
  have hrun : getDirectReports pages managerId pageSize =
      { request := some (directReportsBody managerId (min (max 1 pageSize) 100)),
        result := Except.ok (dedupeById (collectPages pages).1),
        apiCalls := (collectPages pages).2 } := by
    simp only [getDirectReports]
    rw [if_neg h]
  refine ⟨by rw [hrun], by rw [hrun], (dedupeGo_nodup _ []).1, ?_, ?_⟩
  · intro x hx
    exact dedupeGo_first _ [] x hx
  · intro x hx hne
    exact dedupeGo_complete _ [] x hx hne (List.not_mem_nil _)

/-- Concrete server for the claim3 witness: a first page carrying "a" and
"b" with a next link, then a final page repeating "a". -/
def pagesW : List Page :=
  [⟨[⟨"a", some "m", some 0, none⟩, ⟨"b", some "m", some 0, none⟩], true⟩,
   ⟨[⟨"a", some "m", some 0, none⟩], false⟩]

/-- Witness for claim3_direct_reports on pagesW with managerId "m". -/
theorem claim3_direct_reports_witness :
    ("m" ≠ "") ∧
    ((getDirectReports pagesW "m" 100).request =
        some (directReportsBody "m" (min (max 1 100) 100)) ∧
      (getDirectReports pagesW "m" 100).result =
        Except.ok (dedupeById (collectPages pagesW).1) ∧
      ((dedupeById (collectPages pagesW).1).map Person.id).Nodup ∧
      (∀ x ∈ dedupeById (collectPages pagesW).1,
        List.find? (fun y => y.id == x.id) (collectPages pagesW).1 = some x) ∧
      (∀ x ∈ (collectPages pagesW).1, x.id ≠ "" →
        ∃ y, y ∈ dedupeById (collectPages pagesW).1 ∧ y.id = x.id)) :=
  ⟨by decide, claim3_direct_reports pagesW "m" 100 (by decide)⟩

/-- C8: getPerson with an empty key and getDirectReports with an empty
managerId both fail with the caller-error message before any network
request is attempted (zero requests issued, no search body built). -/
theorem claim8_caller_errors :
    ∀ (fetch : String → Except String Person) (pages : List Page) (pageSize : Nat),
      getPerson fetch "" = (Except.error "getPerson: idOrEmail is required", 0) ∧
      (getDirectReports pages "" pageSize).result
        = Except.error "getDirectReports: managerId is required" ∧
      (getDirectReports pages "" pageSize).apiCalls = 0 ∧
      (getDirectReports pages "" pageSize).request = none :=
  fun _ _ _ => ⟨rfl, rfl, rfl, rfl⟩

/- ---------------------------------------------------------------------
Chain resolver (SiftClient.getOrgChain, sift_client.ts lines 320-326) and
the generic dedupe utility (lines 332-334)
--------------------------------------------------------------------- -/

/-- `Array.from(new Set(arr))`: first occurrences in insertion order. -/
def dedupe (seen : List String) : List String → List String
  | [] => []
  | x :: xs =>
    if x ∈ seen then dedupe seen xs
    else x :: dedupe (x :: seen) xs

/-- `Promise.all` over already-created promises: resolves to the values in
positional order, or rejects if any task rejects. -/
def promiseAll : List (Except String Person) → Except String (List Person)
  | [] => Except.ok []
  | t :: rest =>
    match t with
    | Except.error e => Except.error e
    | Except.ok v =>
      match promiseAll rest with
      | Except.error e => Except.error e
      | Except.ok vs => Except.ok (v :: vs)

/-- SiftClient.getOrgChain: fetch the person, dedupe its reportingPath
(defaulting a missing/malformed path to []), fetch each unique superior in
parallel via this.getPerson, and return them in path order, appending the
person itself when includeSelf. -/
def getOrgChain (fetch : String → Except String Person) (idOrEmail : String)
    (includeSelf : Bool) : Except String (List Person) :=
  match (getPerson fetch idOrEmail).1 with
  | Except.error e => Except.error e
  | Except.ok person =>
    let ids := person.reportingPath.getD []
    let unique := dedupe [] ids
    match promiseAll (unique.map (fun i => (getPerson fetch i).1)) with
    | Except.error e => Except.error e
    | Except.ok leaders =>
      Except.ok (if includeSelf then leaders ++ [person] else leaders)

/-- When every task succeeds, promiseAll returns the mapped values in list
order. -/
theorem promiseAll_ok (g : String → Person) (l : List String)
    (fetch : String → Except String Person)
    (hl : ∀ i ∈ l, (getPerson fetch i).1 = Except.ok (g i)) :
    promiseAll (l.map (fun i => (getPerson fetch i).1)) = Except.ok (l.map g) := by
  induction l with
  | nil => rfl
  | cons x xs ih =>
    have hx := hl x (List.mem_cons_self _ _)
    have hxs := ih (fun i hi => hl i (List.mem_cons_of_mem _ hi))
    simp only [List.map_cons, hx, promiseAll, hxs]

/-- C5: when the person at `key` resolves and every unique id on its
reporting path resolves (to `g i`), getOrgChain with includeSelf = false
returns exactly the deduplicated path ids mapped to their entities, in path
order (Promise.all keeps positional order regardless of resolution order),
and getOrgChain with includeSelf = true returns that same sequence with the
person appended last — so the former is a strict prefix of the latter with
length one less. -/
theorem claim5_org_chain (fetch : String → Except String Person) (key : String)
    (person : Person) (g : String → Person)
    (hp : (getPerson fetch key).1 = Except.ok person)
    (hg : ∀ i ∈ dedupe [] (person.reportingPath.getD []),
      (getPerson fetch i).1 = Except.ok (g i)) :
    getOrgChain fetch key false
      = Except.ok ((dedupe [] (person.reportingPath.getD [])).map g) ∧
    getOrgChain fetch key true
      = Except.ok ((dedupe [] (person.reportingPath.getD [])).map g ++ [person]) ∧
    ((dedupe [] (person.reportingPath.getD [])).map g ++ [person]).length
      = ((dedupe [] (person.reportingPath.getD [])).map g).length + 1 := by
  have hall := promiseAll_ok g (dedupe [] (person.reportingPath.getD [])) fetch hg
  refine ⟨?_, ?_, ?_⟩
  · simp [getOrgChain, hp, hall]
  · simp [getOrgChain, hp, hall]
  · rw [List.length_append, List.length_singleton]

/-- Concrete entity for the claim5 witness with reportingPath [l1, l2]. -/
def peW : Person := ⟨"e", some "l2", some 0, some ["l1", "l2"]⟩

/-- Superior l1 for the claim5 witness. -/
def p1W : Person := ⟨"l1", none, some 5, some []⟩

/-- Superior l2 for the claim5 witness. -/
def p2W : Person := ⟨"l2", some "l1", some 3, some ["l1"]⟩

/-- Remote directory for the claim5 witness. -/
def fetchW : String → Except String Person :=
  fun s => if s = "e" then Except.ok peW
           else if s = "l1" then Except.ok p1W
           else if s = "l2" then Except.ok p2W
           else Except.error "nf"

/-- Resolution map for the claim5 witness. -/
def gW : String → Person := fun i => if i = "l1" then p1W else p2W

/-- Witness for claim5_org_chain on the entity with path [l1, l2]. -/
theorem claim5_org_chain_witness :
    ((getPerson fetchW "e").1 = Except.ok peW) ∧
    (∀ i ∈ dedupe [] (peW.reportingPath.getD []),
      (getPerson fetchW i).1 = Except.ok (gW i)) ∧
    (getOrgChain fetchW "e" false
        = Except.ok ((dedupe [] (peW.reportingPath.getD [])).map gW) ∧
      getOrgChain fetchW "e" true
        = Except.ok ((dedupe [] (peW.reportingPath.getD [])).map gW ++ [peW]) ∧
      ((dedupe [] (peW.reportingPath.getD [])).map gW ++ [peW]).length
        = ((dedupe [] (peW.reportingPath.getD [])).map gW).length + 1) := by
  have hg : ∀ i ∈ dedupe [] (peW.reportingPath.getD []),
      (getPerson fetchW i).1 = Except.ok (gW i) := by
    intro i hi
    have he : dedupe [] (peW.reportingPath.getD []) = ["l1", "l2"] := rfl
    rw [he] at hi
    rcases List.mem_cons.mp hi with rfl | hi
    · rfl
    rcases List.mem_cons.mp hi with rfl | hi
    · rfl
    cases hi
  exact ⟨rfl, hg, claim5_org_chain fetchW "e" peW gW rfl hg⟩

/- ---------------------------------------------------------------------
Request headers and media URLs (sift_client.ts lines 139-146, 235-244)
--------------------------------------------------------------------- -/

/-- Client credentials and base URL (SiftClientOptions after constructor
normalisation). -/
structure ClientConfig where
  dataToken : String
  mediaToken : Option String := none
  baseUrl : String := "https://api.justsift.com/v1"
  deriving Repr, DecidableEq

/-- The headers built by requestJsonByUrl (lines 139-146): Authorization
carries the bearer data token, Accept is set, and POST adds Content-Type.
The media token is never consulted. -/
def requestHeaders (c : ClientConfig) (isPost : Bool) : List (String × String) :=
  [("Authorization", "Bearer " ++ c.dataToken), ("Accept", "application/json")] ++
    (if isPost then [("Content-Type", "application/json")] else [])

/-- Options of makeMediaUrl (all optional). -/
structure MediaUrlOpts where
  preferredType : Option String := none
  height : Option Nat := none
  width : Option Nat := none
  fit : Option String := none
  tokenInQuery : Bool := false
  deriving Repr, DecidableEq

/-- A built URL: path part plus query parameters in the order
searchParams.set is called. -/
structure BuiltUrl where
  path : String
  queryParams : List (String × String)
  deriving Repr, DecidableEq

/-- SiftClient.makeMediaUrl (lines 235-244); `encode` stands for
encodeURIComponent (its definition is irrelevant to every property proved
here).  The token query parameter is set only when tokenInQuery is
requested and a media token was configured. -/
def makeMediaUrl (encode : String → String) (c : ClientConfig)
    (idOrEmail kind : String) (o : MediaUrlOpts) : BuiltUrl :=
  { path := c.baseUrl ++ "/media/people/" ++ encode idOrEmail ++ "/" ++ kind,
    queryParams :=
      (match o.preferredType with
       | some v => [("preferredType", v)]
       | none => []) ++
      (match o.height with
       | some hv => [("height", toString hv)]
       | none => []) ++
      (match o.width with
       | some w => [("width", toString w)]
       | none => []) ++
      (match o.fit with
       | some f => [("fit", f)]
       | none => []) ++
      (match o.tokenInQuery, c.mediaToken with
       | true, some t => [("token", t)]
       | _, _ => []) }

/-- C9: JSON request headers are computed without consulting the media
token (same headers for any two media-token configurations), the
Authorization header carries exactly the bearer data token, every header is
one of the three fixed ones, and the media token appears only in the URL
built by the pure makeMediaUrl helper — its token query parameter is
present if and only if tokenInQuery was requested and a media token was
configured, and then it carries exactly that configured token. -/
theorem claim9_token_isolation :
    ∀ (c : ClientConfig) (isPost : Bool) (t1 t2 : Option String)
      (encode : String → String) (idOrEmail kind : String) (o : MediaUrlOpts)
      (tok : String),
      requestHeaders { c with mediaToken := t1 } isPost
        = requestHeaders { c with mediaToken := t2 } isPost ∧
      ("Authorization", "Bearer " ++ c.dataToken) ∈ requestHeaders c isPost ∧
      (∀ k v, (k, v) ∈ requestHeaders c isPost →
        (k, v) ∈ ([("Authorization", "Bearer " ++ c.dataToken),
                   ("Accept", "application/json"),
                   ("Content-Type", "application/json")] : List (String × String))) ∧
      (("token", tok) ∈ (makeMediaUrl encode c idOrEmail kind o).queryParams ↔
        (o.tokenInQuery = true ∧ c.mediaToken = some tok)) := by
  intro c isPost t1 t2 encode idOrEmail kind o tok
  refine ⟨rfl, List.mem_cons_self _ _, ?_, ?_⟩
  · intro k v hkv
    simp only [requestHeaders] at hkv
    rcases List.mem_append.mp hkv with h | h
    · rcases List.mem_cons.mp h with h | h
      · rw [h]; exact List.mem_cons_self _ _
      · rcases List.mem_cons.mp h with h | h
        · rw [h]
          exact List.mem_cons_of_mem _ (List.mem_cons_self _ _)
        · cases h
    · rcases isPost with _ | _
      · cases h
      · rcases List.mem_cons.mp h with h | h
        · rw [h]
          exact List.mem_cons_of_mem _ (List.mem_cons_of_mem _ (List.mem_cons_self _ _))
        · cases h
  · constructor
    · intro hmem
      simp only [makeMediaUrl] at hmem
      rcases List.mem_append.mp hmem with h | h
      · exfalso
        rcases List.mem_append.mp h with h | h
        · rcases List.mem_append.mp h with h | h
          · rcases List.mem_append.mp h with h | h
            · rcases ho : o.preferredType with _ | v <;> rw [ho] at h
              · cases h
              · rcases List.mem_cons.mp h with h | h
                · have h1 : "token" = "preferredType" := congrArg Prod.fst h
                  exact absurd h1 (by decide)
                · cases h
            · rcases ho : o.height with _ | v <;> rw [ho] at h
              · cases h
              · rcases List.mem_cons.mp h with h | h
                · have h1 : "token" = "height" := congrArg Prod.fst h
                  exact absurd h1 (by decide)
                · cases h
          · rcases ho : o.width with _ | v <;> rw [ho] at h
            · cases h
            · rcases List.mem_cons.mp h with h | h
              · have h1 : "token" = "width" := congrArg Prod.fst h
                exact absurd h1 (by decide)
              · cases h
        · rcases ho : o.fit with _ | v <;> rw [ho] at h
          · cases h
          · rcases List.mem_cons.mp h with h | h
            · have h1 : "token" = "fit" := congrArg Prod.fst h
              exact absurd h1 (by decide)
            · cases h
      · rcases hq : o.tokenInQuery with _ | _ <;> rw [hq] at h
        · cases h
        · rcases hm : c.mediaToken with _ | t <;> rw [hm] at h
          · cases h
          · rcases List.mem_cons.mp h with h | h
            · have h2 : tok = t := congrArg Prod.snd h
              exact ⟨rfl, by rw [h2]⟩
            · cases h
    · rintro ⟨hq, hm⟩
      simp only [makeMediaUrl, hq, hm]
      exact List.mem_append.mpr (Or.inr (List.mem_cons_self _ _))

/- ---------------------------------------------------------------------
Subtree walker (SiftClient.getOrgSubtree, sift_client.ts lines 261-317)
--------------------------------------------------------------------- -/

/-- A BFS queue entry: `{ leaderId, id, depth }` as pushed by the source. -/
structure QEntry where
  leaderId : Option String
  id : String
  depth : Nat
  deriving Repr, DecidableEq

/-- An edge record `{ leaderId, personId }`. -/
structure Edge where
  leaderId : Option String
  personId : String
  deriving Repr, DecidableEq

/-- Traversal statistics of OrgSubtreeResult. -/
structure Stats where
  expanded : Nat
  enqueued : Nat
  apiCalls : Nat
  depthReached : Nat
  truncated : Bool
  deriving Repr, DecidableEq

/-- The OrgSubtreeResult returned by getOrgSubtree.  `nodes` is
`Array.from(nodesMap.values())`: JS Map preserves insertion order, so the
node map is modelled as the insertion-ordered list of its values with
membership tested by id. -/
structure OrgSubtreeResult where
  manager : Option Person
  nodes : List Person
  edges : List Edge
  stats : Stats
  deriving Repr, DecidableEq

/-- The mutable locals a finished batch hands back to the driving loop. -/
structure BatchOut where
  queue : List QEntry
  nodes : List Person
  edges : List Edge
  deriving Repr, DecidableEq

/-- `nodesMap.has(id)` on the insertion-ordered value list. -/
def hasNode (nodes : List Person) (i : String) : Bool :=
  nodes.any (fun q => q.id == i)

/-- The `for (const p of drs)` body of getOrgSubtree (lines 292-308): push
the edge; if the id is new, insert the node and, if the node set has now
reached maxNodes, return the truncated result immediately (the remaining
subordinates of the batch are never processed); otherwise enqueue the
subordinate at depth+1 when it reports having direct reports. -/
def processBatch (maxNodes : Nat) (manager : Option Person) (depth : Nat)
    (expanded depthReached apiCalls : Nat) :
    List Person → List QEntry → List Person → List Edge →
      Sum OrgSubtreeResult BatchOut
  | [], queue, nodes, edges => Sum.inr ⟨queue, nodes, edges⟩
  | p :: rest, queue, nodes, edges =>
    let edges1 := edges ++ [⟨p.teamLeaderId, p.id⟩]
    if hasNode nodes p.id then
      processBatch maxNodes manager depth expanded depthReached apiCalls
        rest queue nodes edges1
    else
      let nodes1 := nodes ++ [p]
      if nodes1.length ≥ maxNodes then
        Sum.inl ⟨manager, nodes1, edges1,
          ⟨expanded, nodes1.length, apiCalls, depthReached, true⟩⟩
      else
        let queue1 := if (p.directReportCount.getD 0) > 0
                      then queue ++ [⟨p.teamLeaderId, p.id, depth + 1⟩]
                      else queue
        processBatch maxNodes manager depth expanded depthReached apiCalls
          rest queue1 nodes1 edges1

/-- processBatch instrumented with a ghost output: the truncated return
additionally carries the unprocessed suffix of the batch.  The projection
lemma processBatchT_proj shows it computes exactly processBatch. -/
def processBatchT (maxNodes : Nat) (manager : Option Person) (depth : Nat)
    (expanded depthReached apiCalls : Nat) :
    List Person → List QEntry → List Person → List Edge →
      Sum (OrgSubtreeResult × List Person) BatchOut
  | [], queue, nodes, edges => Sum.inr ⟨queue, nodes, edges⟩
  | p :: rest, queue, nodes, edges =>
    let edges1 := edges ++ [⟨p.teamLeaderId, p.id⟩]
    if hasNode nodes p.id then
      processBatchT maxNodes manager depth expanded depthReached apiCalls
        rest queue nodes edges1
    else
      let nodes1 := nodes ++ [p]
      if nodes1.length ≥ maxNodes then
        Sum.inl (⟨manager, nodes1, edges1,
          ⟨expanded, nodes1.length, apiCalls, depthReached, true⟩⟩, rest)
      else
        let queue1 := if (p.directReportCount.getD 0) > 0
                      then queue ++ [⟨p.teamLeaderId, p.id, depth + 1⟩]
                      else queue
        processBatchT maxNodes manager depth expanded depthReached apiCalls
          rest queue1 nodes1 edges1

/-- The `while (queue.length > 0)` loop of getOrgSubtree (lines 282-316).
`reports i n` is the list getDirectReports(i, n) resolves to (the walker
treats that call as a black box; a rejection there aborts the whole walk,
which the Option-valued model does not need to represent for the
properties proved here).  `fuel` bounds the number of loop iterations;
none means the fuel ran out before the loop finished. -/
def walkLoop (reports : String → Nat → List Person) (pageSize maxDepth maxNodes : Nat)
    (manager : Option Person) :
    Nat → List QEntry → List Person → List Edge → Nat → Nat → Nat →
      Option OrgSubtreeResult
  | 0, _, _, _, _, _, _ => none
  | _ + 1, [], nodes, edges, expanded, depthReached, apiCalls =>
      some ⟨manager, nodes, edges,
        ⟨expanded, nodes.length, apiCalls, depthReached, false⟩⟩
  | fuel + 1, e :: rest, nodes, edges, expanded, depthReached, apiCalls =>
      if e.depth ≥ maxDepth then
        walkLoop reports pageSize maxDepth maxNodes manager fuel
          rest nodes edges expanded (max depthReached e.depth) apiCalls
      else
        match processBatch maxNodes manager e.depth (expanded + 1)
            (max depthReached (e.depth + 1)) (apiCalls + 1)
            (reports e.id pageSize) rest nodes edges with
        | Sum.inl res => some res
        | Sum.inr out =>
          walkLoop reports pageSize maxDepth maxNodes manager fuel
            out.queue out.nodes out.edges (expanded + 1)
            (max depthReached (e.depth + 1)) (apiCalls + 1)

/-- Ghost trace of one walk: `capRemainder` is some with the unprocessed
batch suffix exactly when the walk returned from the node-cap branch, and
`expansions` lists, in order, the queue entries that were expanded (one
getDirectReports call each). -/
structure WalkTrace where
  capRemainder : Option (List Person)
  expansions : List QEntry
  deriving Repr, DecidableEq

/-- walkLoop instrumented with the ghost trace; walkLoopT_proj shows its
first component computes exactly walkLoop. -/
def walkLoopT (reports : String → Nat → List Person) (pageSize maxDepth maxNodes : Nat)
    (manager : Option Person) :
    Nat → List QEntry → List Person → List Edge → Nat → Nat → Nat →
      List QEntry → Option (OrgSubtreeResult × WalkTrace)
  | 0, _, _, _, _, _, _, _ => none
  | _ + 1, [], nodes, edges, expanded, depthReached, apiCalls, log =>
      some (⟨manager, nodes, edges,
        ⟨expanded, nodes.length, apiCalls, depthReached, false⟩⟩, ⟨none, log⟩)
  | fuel + 1, e :: rest, nodes, edges, expanded, depthReached, apiCalls, log =>
      if e.depth ≥ maxDepth then
        walkLoopT reports pageSize maxDepth maxNodes manager fuel
          rest nodes edges expanded (max depthReached e.depth) apiCalls log
      else
        match processBatchT maxNodes manager e.depth (expanded + 1)
            (max depthReached (e.depth + 1)) (apiCalls + 1)
            (reports e.id pageSize) rest nodes edges with
        | Sum.inl (res, rem) => some (res, ⟨some rem, log ++ [e]⟩)
        | Sum.inr out =>
          walkLoopT reports pageSize maxDepth maxNodes manager fuel
            out.queue out.nodes out.edges (expanded + 1)
            (max depthReached (e.depth + 1)) (apiCalls + 1) (log ++ [e])

/-- The remote service as the walker sees it: `person` is what
this.getPerson resolves to (error for not-found or transport failure) and
`reports i n` is what this.getDirectReports(i, n) resolves to. -/
structure Remote where
  person : String → Except String Person
  reports : String → Nat → List Person

/-- Options of getOrgSubtree. -/
structure SubtreeOpts where
  includeManager : Bool := false
  maxDepth : Option Nat := none
  maxNodes : Option Nat := none
  pageSize : Option Nat := none
  deriving Repr, DecidableEq

/-- The optional seeding of the node map with the manager (lines 274-276):
only when includeManager is set, the best-effort resolution succeeded and
the manager id is truthy (nonempty). -/
def seedNodes (includeManager : Bool) (manager : Option Person) : List Person :=
  match manager with
  | some m => if includeManager ∧ m.id ≠ "" then [m] else []
  | none => []

/-- SiftClient.getOrgSubtree (lines 261-317): best-effort root resolution
(`.catch(() => null)`), managerId falls back to the caller-supplied key,
caps normalised (maxDepth default 6; maxNodes = max(1, ·) default 1000;
pageSize clamped into [1,100] default 100), node map optionally seeded,
root enqueued at depth 0, then the BFS loop. -/
def getOrgSubtree (remote : Remote) (fuel : Nat) (managerIdOrEmail : String)
    (opts : SubtreeOpts) : Option OrgSubtreeResult :=
  let manager := ((getPerson remote.person managerIdOrEmail).1).toOption
  let managerId := match manager with
                   | some m => m.id
                   | none => managerIdOrEmail
  let maxDepth := opts.maxDepth.getD 6
  let maxNodes := max 1 (opts.maxNodes.getD 1000)
  let pageSize := min (max 1 (opts.pageSize.getD 100)) 100
  walkLoop remote.reports pageSize maxDepth maxNodes manager fuel
    [⟨none, managerId, 0⟩] (seedNodes opts.includeManager manager) [] 0 0 0

/-- getOrgSubtree instrumented with the ghost walk trace. -/
def getOrgSubtreeT (remote : Remote) (fuel : Nat) (managerIdOrEmail : String)
    (opts : SubtreeOpts) : Option (OrgSubtreeResult × WalkTrace) :=
  let manager := ((getPerson remote.person managerIdOrEmail).1).toOption
  let managerId := match manager with
                   | some m => m.id
                   | none => managerIdOrEmail
  let maxDepth := opts.maxDepth.getD 6
  let maxNodes := max 1 (opts.maxNodes.getD 1000)
  let pageSize := min (max 1 (opts.pageSize.getD 100)) 100
  walkLoopT remote.reports pageSize maxDepth maxNodes manager fuel
    [⟨none, managerId, 0⟩] (seedNodes opts.includeManager manager) [] 0 0 0 []

/-- processBatchT computes processBatch (forgetting the ghost suffix). -/
theorem processBatchT_proj (M : Nat) (mgr : Option Person) (d ex dr ac : Nat) :
    ∀ (batch : List Person) (queue : List QEntry) (nodes : List Person)
      (edges : List Edge),
      processBatch M mgr d ex dr ac batch queue nodes edges =
        (match processBatchT M mgr d ex dr ac batch queue nodes edges with
         | Sum.inl x => Sum.inl x.1
         | Sum.inr out => Sum.inr out) := by
  intro batch
  induction batch with
  | nil => intro queue nodes edges; rfl
  | cons p rest ih =>
    intro queue nodes edges
    simp only [processBatch, processBatchT]
    by_cases h1 : hasNode nodes p.id
    · rw [if_pos h1, if_pos h1]
      exact ih queue nodes (edges ++ [⟨p.teamLeaderId, p.id⟩])
    · rw [if_neg h1, if_neg h1]
      by_cases h2 : (nodes ++ [p]).length ≥ M
      · rw [if_pos h2, if_pos h2]
      · rw [if_neg h2, if_neg h2]
        exact ih _ _ _

/-- walkLoopT computes walkLoop (forgetting the ghost trace), for any
starting log. -/
theorem walkLoopT_proj (reports : String → Nat → List Person)
    (pageSize maxDepth maxNodes : Nat) (manager : Option Person) :
    ∀ (fuel : Nat) (queue : List QEntry) (nodes : List Person) (edges : List Edge)
      (ex dr ac : Nat) (log : List QEntry),
      walkLoop reports pageSize maxDepth maxNodes manager fuel
          queue nodes edges ex dr ac =
        (walkLoopT reports pageSize maxDepth maxNodes manager fuel
          queue nodes edges ex dr ac log).map Prod.fst := by
  intro fuel
  induction fuel with
  | zero => intro queue nodes edges ex dr ac log; rfl
  | succ n ih =>
    intro queue nodes edges ex dr ac log
    match queue with
    | [] => rfl
    | e :: rest =>
      simp only [walkLoop, walkLoopT]
      by_cases hd : e.depth ≥ maxDepth
      · rw [if_pos hd, if_pos hd]
        exact ih _ _ _ _ _ _ _
      · rw [if_neg hd, if_neg hd]
        rw [processBatchT_proj]
        cases hpb : processBatchT maxNodes manager e.depth (ex + 1)
            (max dr (e.depth + 1)) (ac + 1) (reports e.id pageSize) rest nodes edges with
        | inl x => rfl
        | inr out => exact ih _ _ _ _ _ _ _

/-- getOrgSubtreeT computes getOrgSubtree. -/
theorem getOrgSubtree_proj (remote : Remote) (fuel : Nat) (key : String)
    (opts : SubtreeOpts) :
    getOrgSubtree remote fuel key opts
      = (getOrgSubtreeT remote fuel key opts).map Prod.fst := by
  simp only [getOrgSubtree, getOrgSubtreeT]
  rw [walkLoopT_proj]

/-- Anatomy of a truncated batch return: the node list has grown to exactly
max maxNodes (start + 1) (the cap fires at the first insertion that
reaches maxNodes), the stats carry truncated = true, enqueued equal to the
node count and the untouched counters, every edge is either inherited or
generated from a batch element, and the ghost remainder is the unprocessed
suffix of the batch. -/
theorem processBatchT_inl (M : Nat) (mgr : Option Person) (d ex dr ac : Nat) :
    ∀ (batch : List Person) (queue : List QEntry) (nodes : List Person)
      (edges : List Edge) (res : OrgSubtreeResult) (rem : List Person),
      processBatchT M mgr d ex dr ac batch queue nodes edges
          = Sum.inl (res, rem) →
      res.nodes.length = max M (nodes.length + 1) ∧
      res.stats.truncated = true ∧
      res.stats.enqueued = res.nodes.length ∧
      res.stats.expanded = ex ∧
      res.stats.apiCalls = ac ∧
      res.stats.depthReached = dr ∧
      res.manager = mgr ∧
      (∀ e ∈ res.edges, e ∈ edges ∨ ∃ p ∈ batch, e = ⟨p.teamLeaderId, p.id⟩) ∧
      (∃ t, t ++ rem = batch) := by
  intro batch
  induction batch with
  | nil =>
    intro queue nodes edges res rem h
    exact absurd h (by simp [processBatchT])
  | cons p rest ih =>
    intro queue nodes edges res rem h
    simp only [processBatchT] at h
    by_cases h1 : hasNode nodes p.id
    · rw [if_pos h1] at h
      obtain ⟨c1, c2, c3, c4, c5, c6, c7, c8, t, ht⟩ := ih _ _ _ _ _ h
      refine ⟨c1, c2, c3, c4, c5, c6, c7, ?_, p :: t, by rw [List.cons_append, ht]⟩
      intro e he
      rcases c8 e he with he' | ⟨p', hp', he'⟩
      · rcases List.mem_append.mp he' with he'' | he''
        · exact Or.inl he''
        · exact Or.inr ⟨p, List.mem_cons_self _ _, List.mem_singleton.mp he''⟩
      · exact Or.inr ⟨p', List.mem_cons_of_mem _ hp', he'⟩
    · rw [if_neg h1] at h
      by_cases h2 : (nodes ++ [p]).length ≥ M
      · rw [if_pos h2] at h
        rw [Sum.inl.injEq, Prod.mk.injEq] at h
        obtain ⟨hres, hrem⟩ := h
        subst hres
        subst hrem
        have hlen : (nodes ++ [p]).length = nodes.length + 1 := by
          rw [List.length_append, List.length_singleton]
        have hub : M ≤ nodes.length + 1 := by rw [← hlen]; exact h2
        refine ⟨?_, rfl, rfl, rfl, rfl, rfl, rfl, ?_, [p], rfl⟩
        · show (nodes ++ [p]).length = max M (nodes.length + 1)
          rw [hlen, Nat.max_eq_right hub]
        · intro e he
          rcases List.mem_append.mp he with he' | he'
          · exact Or.inl he'
          · exact Or.inr ⟨p, List.mem_cons_self _ _, List.mem_singleton.mp he'⟩
      · rw [if_neg h2] at h
        obtain ⟨c1, c2, c3, c4, c5, c6, c7, c8, t, ht⟩ := ih _ _ _ _ _ h
        have hlen : (nodes ++ [p]).length = nodes.length + 1 := by
          rw [List.length_append, List.length_singleton]
        have hM : nodes.length + 1 < M := by
          rw [← hlen]; exact Nat.lt_of_not_le h2
        have h4 : nodes.length + 1 + 1 ≤ M := hM
        have h5 : nodes.length + 1 ≤ M := Nat.le_of_lt hM
        refine ⟨?_, c2, c3, c4, c5, c6, c7, ?_, p :: t, by rw [List.cons_append, ht]⟩
        · rw [c1, hlen, Nat.max_eq_left h4, Nat.max_eq_left h5]
        · intro e he
          rcases c8 e he with he' | ⟨p', hp', he'⟩
          · rcases List.mem_append.mp he' with he'' | he''
            · exact Or.inl he''
            · exact Or.inr ⟨p, List.mem_cons_self _ _, List.mem_singleton.mp he''⟩
          · exact Or.inr ⟨p', List.mem_cons_of_mem _ hp', he'⟩

/-- Anatomy of a batch that finishes without tripping the cap: the node
list either stayed unchanged or ended strictly below maxNodes (every
insertion re-checked the cap), every edge is inherited or generated from a
batch element, and every queue entry is inherited or was enqueued at
depth + 1. -/
theorem processBatchT_inr (M : Nat) (mgr : Option Person) (d ex dr ac : Nat) :
    ∀ (batch : List Person) (queue : List QEntry) (nodes : List Person)
      (edges : List Edge) (out : BatchOut),
      processBatchT M mgr d ex dr ac batch queue nodes edges = Sum.inr out →
      (out.nodes.length < M ∨ out.nodes = nodes) ∧
      (∀ e ∈ out.edges, e ∈ edges ∨ ∃ p ∈ batch, e = ⟨p.teamLeaderId, p.id⟩) ∧
      (∀ q ∈ out.queue, q ∈ queue ∨ q.depth = d + 1) := by
  intro batch
  induction batch with
  | nil =>
    intro queue nodes edges out h
    rw [processBatchT, Sum.inr.injEq] at h
    subst h
    exact ⟨Or.inr rfl, fun e he => Or.inl he, fun q hq => Or.inl hq⟩
  | cons p rest ih =>
    intro queue nodes edges out h
    simp only [processBatchT] at h
    by_cases h1 : hasNode nodes p.id
    · rw [if_pos h1] at h
      obtain ⟨c1, c2, c3⟩ := ih _ _ _ _ h
      refine ⟨c1, ?_, c3⟩
      intro e he
      rcases c2 e he with he' | ⟨p', hp', he'⟩
      · rcases List.mem_append.mp he' with he'' | he''
        · exact Or.inl he''
        · exact Or.inr ⟨p, List.mem_cons_self _ _, List.mem_singleton.mp he''⟩
      · exact Or.inr ⟨p', List.mem_cons_of_mem _ hp', he'⟩
    · rw [if_neg h1] at h
      by_cases h2 : (nodes ++ [p]).length ≥ M
      · rw [if_pos h2] at h
        cases h
      · rw [if_neg h2] at h
        obtain ⟨c1, c2, c3⟩ := ih _ _ _ _ h
        have hlt : (nodes ++ [p]).length < M := Nat.lt_of_not_le h2
        refine ⟨?_, ?_, ?_⟩
        · rcases c1 with c1 | c1
          · exact Or.inl c1
          · rw [c1]
            exact Or.inl hlt
        · intro e he
          rcases c2 e he with he' | ⟨p', hp', he'⟩
          · rcases List.mem_append.mp he' with he'' | he''
            · exact Or.inl he''
            · exact Or.inr ⟨p, List.mem_cons_self _ _, List.mem_singleton.mp he''⟩
          · exact Or.inr ⟨p', List.mem_cons_of_mem _ hp', he'⟩
        · intro q hq
          rcases c3 q hq with hq' | hq'
          · by_cases hdr : (p.directReportCount.getD 0) > 0
            · rw [if_pos hdr] at hq'
              rcases List.mem_append.mp hq' with hq'' | hq''
              · exact Or.inl hq''
              · rw [List.mem_singleton.mp hq'']
                exact Or.inr rfl
            · rw [if_neg hdr] at hq'
              exact Or.inl hq'
          · exact Or.inr hq'

/-- Main walk invariant: a finished walk returns at most
max maxNodes (start + 1) nodes, its truncated flag is set exactly when the
run exited through the node-cap branch (witnessed by the ghost
capRemainder), a truncated result did reach the cap, enqueued always equals
the returned node count, and the unprocessed cap remainder is a suffix of
the batch fetched for one of the expanded entries. -/
theorem walkLoopT_main (R : String → Nat → List Person) (pz D M : Nat)
    (mgr : Option Person) :
    ∀ (fuel : Nat) (queue : List QEntry) (nodes : List Person) (edges : List Edge)
      (ex dr ac : Nat) (log : List QEntry) (res : OrgSubtreeResult) (tr : WalkTrace),
      walkLoopT R pz D M mgr fuel queue nodes edges ex dr ac log = some (res, tr) →
      res.nodes.length ≤ max M (nodes.length + 1) ∧
      (res.stats.truncated = true ↔ tr.capRemainder.isSome = true) ∧
      (res.stats.truncated = true → M ≤ res.nodes.length) ∧
      res.stats.enqueued = res.nodes.length ∧
      (∀ rem, tr.capRemainder = some rem →
        ∃ q, q ∈ tr.expansions ∧ ∃ t, t ++ rem = R q.id pz) := by
  intro fuel
  induction fuel with
  | zero =>
    intro queue nodes edges ex dr ac log res tr h
    exact Option.noConfusion h
  | succ n ih =>
    intro queue nodes edges ex dr ac log res tr h
    match queue with
    | [] =>
      simp only [walkLoopT] at h
      rw [Option.some.injEq, Prod.mk.injEq] at h
      obtain ⟨hres, htr⟩ := h
      subst hres
      subst htr
      refine ⟨le_trans (Nat.le_succ _) (le_max_right _ _), by simp, ?_, rfl, ?_⟩
      · intro hc
        exact absurd hc (by simp)
      · intro rem hrem
        exact Option.noConfusion hrem
    | e :: rest =>
      simp only [walkLoopT] at h
      by_cases hd : e.depth ≥ D
      · rw [if_pos hd] at h
        exact ih _ _ _ _ _ _ _ _ _ h
      · rw [if_neg hd] at h
        cases hpb : processBatchT M mgr e.depth (ex + 1) (max dr (e.depth + 1))
            (ac + 1) (R e.id pz) rest nodes edges with
        | inl x =>
          obtain ⟨r, rem⟩ := x
          simp only [hpb] at h
          rw [Option.some.injEq, Prod.mk.injEq] at h
          obtain ⟨hres, htr⟩ := h
          subst hres
          subst htr
          obtain ⟨c1, c2, c3, c4, c5, c6, c7, c8, hsuf⟩ :=
            processBatchT_inl M mgr e.depth (ex + 1) (max dr (e.depth + 1))
              (ac + 1) (R e.id pz) rest nodes edges r rem hpb
          refine ⟨le_of_eq c1, by simp [c2], ?_, c3, ?_⟩
          · intro _
            rw [c1]
            exact le_max_left _ _
          · intro rem' hrem'
            rw [Option.some.injEq] at hrem'
            subst hrem'
            exact ⟨e, List.mem_append.mpr (Or.inr (List.mem_singleton.mpr rfl)), hsuf⟩
        | inr out =>
          simp only [hpb] at h
          obtain ⟨b1, b2, b3, b4, b5⟩ := ih _ _ _ _ _ _ _ _ _ h
          obtain ⟨n1, _, _⟩ :=
            processBatchT_inr M mgr e.depth (ex + 1) (max dr (e.depth + 1))
              (ac + 1) (R e.id pz) rest nodes edges out hpb
          refine ⟨?_, b2, b3, b4, b5⟩
          rcases n1 with n1 | n1
          · have : max M (out.nodes.length + 1) = M := Nat.max_eq_left n1
            rw [this] at b1
            exact le_trans b1 (le_max_left _ _)
          · rw [n1] at b1
            exact b1

/-- Depth-cap invariant: with an honest reports function (subordinates of i
declare i as their leader, which the teamLeaderId eq filter guarantees), a
finished walk only ever expanded entries strictly below maxDepth (the
depth-capped dequeue branch performs no fetch), apiCalls and expanded both
count exactly the expansions, and every returned edge originates (via its
leaderId) from an expanded entry, hence from a node discovered at depth
< maxDepth. -/
theorem walkLoopT_edges (R : String → Nat → List Person) (pz D M : Nat)
    (mgr : Option Person)
    (honest : ∀ i p, p ∈ R i pz → p.teamLeaderId = some i) :
    ∀ (fuel : Nat) (queue : List QEntry) (nodes : List Person) (edges : List Edge)
      (ex dr ac : Nat) (log : List QEntry) (res : OrgSubtreeResult) (tr : WalkTrace),
      walkLoopT R pz D M mgr fuel queue nodes edges ex dr ac log = some (res, tr) →
      (∀ q ∈ log, q.depth < D) →
      (∀ e ∈ edges, ∃ q, q ∈ log ∧ e.leaderId = some q.id ∧ q.depth < D) →
      ac = log.length →
      ex = log.length →
      (∀ q ∈ tr.expansions, q.depth < D) ∧
      res.stats.apiCalls = tr.expansions.length ∧
      res.stats.expanded = tr.expansions.length ∧
      (∀ e ∈ res.edges, ∃ q, q ∈ tr.expansions ∧ e.leaderId = some q.id ∧ q.depth < D) ∧
      (∃ t, tr.expansions = log ++ t) := by
  intro fuel
  induction fuel with
  | zero =>
    intro queue nodes edges ex dr ac log res tr h
    exact Option.noConfusion h
  | succ n ih =>
    intro queue nodes edges ex dr ac log res tr h hlog hedges hac hex
    match queue with
    | [] =>
      simp only [walkLoopT] at h
      rw [Option.some.injEq, Prod.mk.injEq] at h
      obtain ⟨hres, htr⟩ := h
      subst hres
      subst htr
      subst hac
      subst hex
      exact ⟨hlog, rfl, rfl, hedges, [], (List.append_nil log).symm⟩
    | e :: rest =>
      simp only [walkLoopT] at h
      by_cases hd : e.depth ≥ D
      · rw [if_pos hd] at h
        exact ih _ _ _ _ _ _ _ _ _ h hlog hedges hac hex
      · rw [if_neg hd] at h
        have hde : e.depth < D := Nat.lt_of_not_le hd
        have hlog' : ∀ q ∈ log ++ [e], q.depth < D := by
          intro q hq
          rcases List.mem_append.mp hq with hq' | hq'
          · exact hlog q hq'
          · rw [List.mem_singleton.mp hq']
            exact hde
        have hlen' : ac + 1 = (log ++ [e]).length := by
          rw [List.length_append, List.length_singleton, hac]
        cases hpb : processBatchT M mgr e.depth (ex + 1) (max dr (e.depth + 1))
            (ac + 1) (R e.id pz) rest nodes edges with
        | inl x =>
          obtain ⟨r, rem⟩ := x
          simp only [hpb] at h
          rw [Option.some.injEq, Prod.mk.injEq] at h
          obtain ⟨hres, htr⟩ := h
          subst hres
          subst htr
          obtain ⟨_, _, _, c4, c5, _, _, c8, _⟩ :=
            processBatchT_inl M mgr e.depth (ex + 1) (max dr (e.depth + 1))
              (ac + 1) (R e.id pz) rest nodes edges r rem hpb
          refine ⟨hlog', by rw [c5, hlen'], by rw [c4, hex, List.length_append,
            List.length_singleton], ?_, [e], rfl⟩
          intro e' he'
          rcases c8 e' he' with he'' | ⟨p, hp, he''⟩
          · obtain ⟨q, hq, hql, hqd⟩ := hedges e' he''
            exact ⟨q, List.mem_append.mpr (Or.inl hq), hql, hqd⟩
          · refine ⟨e, List.mem_append.mpr (Or.inr (List.mem_singleton.mpr rfl)), ?_, hde⟩
            rw [he'']
            exact honest e.id p hp
        | inr out =>
          simp only [hpb] at h
          obtain ⟨_, b2, _⟩ :=
            processBatchT_inr M mgr e.depth (ex + 1) (max dr (e.depth + 1))
              (ac + 1) (R e.id pz) rest nodes edges out hpb
          have hedges' : ∀ e' ∈ out.edges,
              ∃ q, q ∈ log ++ [e] ∧ e'.leaderId = some q.id ∧ q.depth < D := by
            intro e' he'
            rcases b2 e' he' with he'' | ⟨p, hp, he''⟩
            · obtain ⟨q, hq, hql, hqd⟩ := hedges e' he''
              exact ⟨q, List.mem_append.mpr (Or.inl hq), hql, hqd⟩
            · refine ⟨e, List.mem_append.mpr (Or.inr (List.mem_singleton.mpr rfl)), ?_, hde⟩
              rw [he'']
              exact honest e.id p hp
          obtain ⟨d1, d2, d3, d4, t, dt⟩ :=
            ih _ _ _ _ _ _ _ _ _ h hlog' hedges' hlen' (by rw [hex, ← hac]; exact hlen')
          refine ⟨d1, d2, d3, d4, [e] ++ t, by rw [dt, List.append_assoc]⟩

/-- The seeded node map holds at most the manager. -/
theorem seedNodes_length_le (inc : Bool) (mgr : Option Person) :
    (seedNodes inc mgr).length ≤ 1 := by
  cases mgr with
  | none => exact Nat.zero_le 1
  | some m =>
    simp only [seedNodes]
    by_cases hc : inc = true ∧ m.id ≠ ""
    · rw [if_pos hc]
      exact le_refl 1
    · rw [if_neg hc]
      exact Nat.zero_le 1

/-- Without includeManager the node map starts empty. -/
theorem seedNodes_false (mgr : Option Person) : seedNodes false mgr = [] := by
  cases mgr with
  | none => rfl
  | some m =>
    simp only [seedNodes]
    rw [if_neg]
    rintro ⟨hc, _⟩
    exact Bool.false_ne_true hc

/-- C1 (amended): the returned node set stays within the cap except in the
one corner the code permits — when the manager is seeded and the normalised
cap is 1, the first inserted subordinate makes the size jump past the cap
before the check fires, so the bound is N + 1 there; whenever
includeManager is off or N ≥ 2 the bound N holds as claimed.  truncated is
true exactly when the run exited through the cap branch (witnessed by the
ghost capRemainder), a truncated run did reach the cap, and the cap branch
returned immediately: the unprocessed remainder of the triggering batch is
a suffix of the subordinate list fetched for one of the expanded entries. -/
theorem claim1_subtree_node_cap (remote : Remote) (fuel : Nat) (key : String)
    (opts : SubtreeOpts) (res : OrgSubtreeResult) (tr : WalkTrace)
    (h : getOrgSubtreeT remote fuel key opts = some (res, tr)) :
    getOrgSubtree remote fuel key opts = some res ∧
    res.nodes.length ≤ max 1 (opts.maxNodes.getD 1000) + 1 ∧
    (opts.includeManager = false →
      res.nodes.length ≤ max 1 (opts.maxNodes.getD 1000)) ∧
    (2 ≤ max 1 (opts.maxNodes.getD 1000) →
      res.nodes.length ≤ max 1 (opts.maxNodes.getD 1000)) ∧
    (res.stats.truncated = true ↔ tr.capRemainder.isSome = true) ∧
    (res.stats.truncated = true → max 1 (opts.maxNodes.getD 1000) ≤ res.nodes.length) ∧
    (∀ rem, tr.capRemainder = some rem →
      ∃ q, q ∈ tr.expansions ∧
        ∃ t, t ++ rem = remote.reports q.id (min (max 1 (opts.pageSize.getD 100)) 100)) := by
  have hT := h
  simp only [getOrgSubtreeT] at hT
  obtain ⟨m1, m2, m3, m4, m5⟩ := walkLoopT_main _ _ _ _ _ _ _ _ _ _ _ _ _ _ _ hT
  have hseed := seedNodes_length_le opts.includeManager
    ((getPerson remote.person key).1.toOption)
  have h1N : 1 ≤ max 1 (opts.maxNodes.getD 1000) := le_max_left _ _
  refine ⟨?_, ?_, ?_, ?_, m2, m3, m5⟩
  · rw [getOrgSubtree_proj, h]
    rfl
  · refine le_trans m1 (Nat.max_le.mpr ⟨Nat.le_succ _, Nat.succ_le_succ (le_trans hseed h1N)⟩)
  · intro hinc
    rw [hinc] at m1
    rw [seedNodes_false] at m1
    simp only [List.length_nil] at m1
    rw [Nat.max_eq_left h1N] at m1
    exact m1
  · intro h2N
    have : (seedNodes opts.includeManager
        ((getPerson remote.person key).1.toOption)).length + 1
        ≤ max 1 (opts.maxNodes.getD 1000) :=
      le_trans (Nat.succ_le_succ hseed) h2N
    rw [Nat.max_eq_left this] at m1
    exact m1

/-- C4: with an honest reports function (which the teamLeaderId eq filter
of getDirectReports guarantees), a dequeued entry whose depth has reached
maxDepth is never expanded: every expansion in the trace is at depth
strictly below the cap, apiCalls and expanded both count exactly those
expansions (so no subordinate fetch happens for depth-capped entries), and
every edge in the returned edge list originates, via its leaderId, from an
entry expanded — hence discovered — at depth < maxDepth; in particular no
edge originates from a node discovered at depth greater than maxDepth. -/
theorem claim4_depth_cap (remote : Remote) (fuel : Nat) (key : String)
    (opts : SubtreeOpts) (res : OrgSubtreeResult) (tr : WalkTrace)
    (h : getOrgSubtreeT remote fuel key opts = some (res, tr))
    (honest : ∀ i p,
      p ∈ remote.reports i (min (max 1 (opts.pageSize.getD 100)) 100) →
      p.teamLeaderId = some i) :
    getOrgSubtree remote fuel key opts = some res ∧
    (∀ q ∈ tr.expansions, q.depth < opts.maxDepth.getD 6) ∧
    res.stats.apiCalls = tr.expansions.length ∧
    res.stats.expanded = tr.expansions.length ∧
    (∀ e ∈ res.edges, ∃ q, q ∈ tr.expansions ∧ e.leaderId = some q.id ∧
      q.depth < opts.maxDepth.getD 6) := by
  have hT := h
  simp only [getOrgSubtreeT] at hT
  obtain ⟨d1, d2, d3, d4, _⟩ :=
    walkLoopT_edges _ _ _ _ _ honest _ _ _ _ _ _ _ _ _ _ hT
      (fun q hq => absurd hq (List.not_mem_nil q))
      (fun e he => absurd he (List.not_mem_nil e))
      rfl rfl
  refine ⟨?_, d1, d2, d3, d4⟩
  rw [getOrgSubtree_proj, h]
  rfl

/-- C10: in every result getOrgSubtree returns — through the truncated
return and the normal return alike — stats.enqueued is set to nodesMap.size,
i.e. the length of the returned unique node list, not the number of queue
insertions performed during the traversal. -/
theorem claim10_enqueued_counts_nodes (remote : Remote) (fuel : Nat) (key : String)
    (opts : SubtreeOpts) (res : OrgSubtreeResult)
    (h : getOrgSubtree remote fuel key opts = some res) :
    res.stats.enqueued = res.nodes.length := by
  rw [getOrgSubtree_proj] at h
  cases hT : getOrgSubtreeT remote fuel key opts with
  | none =>
    rw [hT] at h
    exact Option.noConfusion h
  | some x =>
    obtain ⟨r, tr⟩ := x
    rw [hT, Option.map_some'] at h
    rw [Option.some.injEq] at h
    subst h
    have hT' := hT
    simp only [getOrgSubtreeT] at hT'
    exact (walkLoopT_main _ _ _ _ _ _ _ _ _ _ _ _ _ _ _ hT').2.2.2.1

/-- Manager entity for the subtree scenarios. -/
def pmA : Person := ⟨"m", none, some 1, none⟩

/-- Leaf subordinate of pmA. -/
def paA : Person := ⟨"a", some "m", some 0, none⟩

/-- Honest remote directory: subordinates of i are exactly the people whose
teamLeaderId is i. -/
def remoteA : Remote :=
  { person := fun s => if s = "m" then Except.ok pmA else Except.error "nf",
    reports := fun i _ => [pmA, paA].filter (fun p => p.teamLeaderId == some i) }

/-- Default options. -/
def optsA : SubtreeOpts := {}

/-- Result of walking remoteA from "m" with default options. -/
def resA : OrgSubtreeResult :=
  ⟨some pmA, [paA], [⟨some "m", "a"⟩], ⟨1, 1, 1, 1, false⟩⟩

/-- Ghost trace of that walk: no cap exit, one expansion (the root). -/
def trA : WalkTrace := ⟨none, [⟨none, "m", 0⟩]⟩

/-- Witness for claim1_subtree_node_cap on the remoteA walk. -/
theorem claim1_subtree_node_cap_witness :
    getOrgSubtreeT remoteA 3 "m" optsA = some (resA, trA) ∧
    (getOrgSubtree remoteA 3 "m" optsA = some resA ∧
      resA.nodes.length ≤ max 1 (optsA.maxNodes.getD 1000) + 1 ∧
      (optsA.includeManager = false →
        resA.nodes.length ≤ max 1 (optsA.maxNodes.getD 1000)) ∧
      (2 ≤ max 1 (optsA.maxNodes.getD 1000) →
        resA.nodes.length ≤ max 1 (optsA.maxNodes.getD 1000)) ∧
      (resA.stats.truncated = true ↔ trA.capRemainder.isSome = true) ∧
      (resA.stats.truncated = true →
        max 1 (optsA.maxNodes.getD 1000) ≤ resA.nodes.length) ∧
      (∀ rem, trA.capRemainder = some rem →
        ∃ q, q ∈ trA.expansions ∧
          ∃ t, t ++ rem = remoteA.reports q.id
            (min (max 1 (optsA.pageSize.getD 100)) 100))) :=
  ⟨rfl, claim1_subtree_node_cap remoteA 3 "m" optsA resA trA rfl⟩

/-- Manager entity of the counterexample scenario. -/
def pmB : Person := ⟨"m", none, some 1, none⟩

/-- Subordinate of pmB. -/
def paB : Person := ⟨"a", some "m", some 0, none⟩

/-- Remote directory for the counterexample scenario. -/
def remoteB : Remote :=
  { person := fun s => if s = "m" then Except.ok pmB else Except.error "nf",
    reports := fun i _ => if i = "m" then [paB] else [] }

/-- includeManager with node cap 1. -/
def optsB : SubtreeOpts := { includeManager := true, maxNodes := some 1 }

/-- The result the code returns there: TWO nodes despite maxNodes = 1. -/
def resB : OrgSubtreeResult :=
  ⟨some pmB, [pmB, paB], [⟨some "m", "a"⟩], ⟨1, 2, 1, 1, true⟩⟩

/-- C1 counterexample: with includeManager = true and maxNodes = 1 against
a manager with one subordinate, the returned node set has 2 entities — the
seeded manager already fills the cap and the first subordinate insertion
happens before the size check fires — refuting "the returned result's node
set contains at most N entities (including the optionally seeded manager)"
at N = 1. -/
theorem claim1_counterexample :
    getOrgSubtree remoteB 3 "m" optsB = some resB ∧
    max 1 (optsB.maxNodes.getD 1000) = 1 ∧
    resB.nodes.length = 2 ∧
    ¬ (resB.nodes.length ≤ max 1 (optsB.maxNodes.getD 1000)) :=
  ⟨rfl, rfl, rfl, by decide⟩

/-- Witness for claim4_depth_cap on the remoteA walk. -/
theorem claim4_depth_cap_witness :
    getOrgSubtreeT remoteA 3 "m" optsA = some (resA, trA) ∧
    (getOrgSubtree remoteA 3 "m" optsA = some resA ∧
      (∀ q ∈ trA.expansions, q.depth < optsA.maxDepth.getD 6) ∧
      resA.stats.apiCalls = trA.expansions.length ∧
      resA.stats.expanded = trA.expansions.length ∧
      (∀ e ∈ resA.edges, ∃ q, q ∈ trA.expansions ∧ e.leaderId = some q.id ∧
        q.depth < optsA.maxDepth.getD 6)) :=
  ⟨rfl, claim4_depth_cap remoteA 3 "m" optsA resA trA rfl
    (fun _ _ hp => eq_of_beq (List.mem_filter.mp hp).2)⟩

/-- Witness for claim10_enqueued_counts_nodes on the remoteA walk. -/
theorem claim10_enqueued_counts_nodes_witness :
    getOrgSubtree remoteA 3 "m" optsA = some resA ∧
    resA.stats.enqueued = resA.nodes.length :=
  ⟨rfl, claim10_enqueued_counts_nodes remoteA 3 "m" optsA resA rfl⟩
